import Mathlib

/-!
Shallow embedding of the TalkBank `update-chat-types` tool (`src/lib.rs`).

Transcript content is modelled as a list of lines, where a line is a list of
characters.  The Rust source classifies a line by its leading bytes
(`[b'@', b'E', b'n', b'd', ..]`, `[b'*', ..]`,
`[b'@', b'T', b'y', b'p', b'e', b's', b':', ..]`); all of these tokens are
ASCII, so the byte-slice patterns coincide with character-level prefix tests
on the decoded line.  `BufRead::lines` strips the terminating newline from
every line and `writeln!` appends one, so the line-list view is exact for
newline-delimited content.
-/

namespace UpdateChatTypes

/-- Lines of a transcript, as character lists (one line, no newline). -/
abbrev Line := List Char

/-- Leading token of a header line: `@Types:`. -/
def typesTok : Line := ['@', 'T', 'y', 'p', 'e', 's', ':']

/-- Leading token of an end-of-content marker line: `@End`. -/
def endTok : Line := ['@', 'E', 'n', 'd']

/-- Leading token of an utterance-start line: `*`. -/
def starTok : Line := ['*']

/-- Rust match arm `[b'@', b'E', b'n', b'd', ..] | [b'*', ..]`: the line is an
end-of-content marker or an utterance start (the scan's terminators). -/
def isBreakLine (l : Line) : Bool := endTok.isPrefixOf l || starTok.isPrefixOf l

/-- Rust match arm `[b'@', b'T', b'y', b'p', b'e', b's', b':', ..]`:
the line is a `@Types:` header line. -/
def isTypesLine (l : Line) : Bool := typesTok.isPrefixOf l

/-- Fall-through match arm `_`: an ordinary line. -/
def isOrdinary (l : Line) : Bool := !isBreakLine l && !isTypesLine l

/-- Any of the three lines at which the streaming scan stops. -/
def isTrigger (l : Line) : Bool := isBreakLine l || isTypesLine l

/-- Result of one call of the streaming rewriter `updated_prefix`:
the returned boolean, the lines written to the optional sink (in order,
empty when no sink was supplied), and the lines left unconsumed in the
iterator after the call. -/
structure PrefixResult where
  updated : Bool
  written : List Line
  rest : List Line
deriving DecidableEq, Repr

/-- Embedding of `updated_prefix` (src/lib.rs:126-168).  `sink` records
whether a `Some(w)` sink was passed; writes are modelled by accumulating the
written lines.  The loop structure (break on `@End`/`*`, break on `@Types:`
with the equal/differing cases, write-and-continue on ordinary lines) is
translated arm by arm. -/
def updated_prefix (new_types : Line) (sink : Bool) : List Line → PrefixResult
  | [] => ⟨false, [], []⟩
  | line :: rest =>
    if isBreakLine line then
      ⟨true, if sink then [new_types, line] else [], rest⟩
    else if isTypesLine line then
      if line ≠ new_types then
        ⟨true, if sink then [new_types] else [], rest⟩
      else
        ⟨false, if sink then [line] else [], rest⟩
    else
      let r := updated_prefix new_types sink rest
      ⟨r.updated, (if sink then [line] else []) ++ r.written, r.rest⟩

/-- Embedding of `update_types_to_new_path` (src/lib.rs:218-253) at the level
of file contents.  The first component is the returned boolean; the second is
`some` of the content persisted to `new_path` when a write happened, and
`none` when nothing was written (dry run, or no update needed).  In the
non-dry-run updated case the source writes the buffered prefix and then copies
every remaining line of the iterator verbatim. -/
def update_types_to_new_path (lines : List Line) (new_types : Line)
    (dry_run : Bool) : Bool × Option (List Line) :=
  if dry_run then
    (( updated_prefix new_types false lines).updated, none)
  else
    let r := updated_prefix new_types true lines
    if r.updated then (r.updated, some (r.written ++ r.rest)) else (r.updated, none)

/-- Content of the file after a non-dry-run `update_types_to_new_path` with
source and destination equal (the orchestrator's in-place use): the persisted
content when a write happened, the unchanged original otherwise. -/
def resultContent (lines : List Line) (new_types : Line) : List Line :=
  match update_types_to_new_path lines new_types false with
  | (_, some c) => c
  | (_, none) => lines

/-- Embedding of `get_types_fast` (src/lib.rs:69-83): line-at-a-time scan
returning the first `@Types:` line, bailing out at `@End`/`*`. -/
def get_types_fast : List Line → Option Line
  | [] => none
  | line :: rest =>
    if isBreakLine line then none
    else if isTypesLine line then some line
    else get_types_fast rest

/-- Lines matched by the regex `(?m)^@Types:.+$` used by the slurp variants:
the anchors make any match span a whole line, so a line matches exactly when
it starts with `@Types:` and `.+` (which cannot cross a newline) matches at
least one further character. -/
def typesRegexMatch (l : Line) : Bool :=
  isTypesLine l && decide (typesTok.length < l.length)

/-- Embedding of `get_types_slurp` (src/lib.rs:62-65): `Regex::find` returns
the leftmost match of `(?m)^@Types:.+$` in the slurped content, i.e. the
first line matching the regex. -/
def get_types_slurp (lines : List Line) : Option Line :=
  lines.find? typesRegexMatch

/-- Embedding of `replace_types_slurp` (src/lib.rs:87-122), which only
returns a boolean: `true` iff the first regex match differs from `new_types`,
and unconditionally `true` when there is no match (the splice branch returns
`true` whether or not a splice point exists). -/
def replace_types_slurp (lines : List Line) (new_types : Line) : Bool :=
  match lines.find? typesRegexMatch with
  | some m => decide (m ≠ new_types)
  | none => true

/-- Embedding of `replace_types_fast` (src/lib.rs:172-183): run the streaming
rewriter with a vector sink and return its boolean. -/
def replace_types_fast (lines : List Line) (new_types : Line) : Bool :=
  ( updated_prefix new_types true lines).updated

/-- Embedding of `read_types_file` (src/lib.rs:255-269): look only at the
first line; return it when it starts with `@Types:`.  `none` models the two
`panic!` exits (first line lacking the token, or empty file). -/
def read_types_file : List Line → Option Line
  | [] => none
  | line :: _ => if typesTok.isPrefixOf line then some line else none

/-- Region of a content before its first end-marker or utterance-start line
(the whole content when there is none): the part of a transcript in which a
header line may legitimately sit. -/
def beforeBreak (lines : List Line) : List Line :=
  lines.takeWhile fun l => !isBreakLine l

/-- Number of `@Types:` header lines before the first break line. -/
def headerCount (lines : List Line) : Nat :=
  (beforeBreak lines).countP fun l => isTypesLine l

/-- Position at which the header of a content sits or would be inserted:
the index of the first header line when one occurs before the first break
line, otherwise the index of the first break line (where a missing header is
spliced in). -/
def headerPos (lines : List Line) : Nat :=
  if 0 < headerCount lines then lines.findIdx (fun l => isTypesLine l)
  else (beforeBreak lines).length

/-- Directory paths, as component lists relative to the walked root
(the root itself is `[]`, mirroring the `dir_path_str == path` test). -/
abbrev DirPath := List String

/-- One entry yielded by the directory walk, after the `.git` filter and the
symlink skip: a directory, or a plain file given by its containing directory
and its file name (the source only ever uses a file entry through
`entry.file_name()` and `entry.path().parent()`). -/
inductive FsEntry where
  | dir : DirPath → FsEntry
  | file : DirPath → String → FsEntry
deriving DecidableEq

/-- State built by `collect_chat_types`: the `HashSet` of directories that
directly contain `0types.txt`, and the `HashMap` from each directory to the
nearest marker-carrying ancestor-or-self (`none` when there is none).
The map is a partial function: `none` models an absent key. -/
structure CollectState where
  types_dirs : List DirPath
  types_map : DirPath → Option (Option DirPath)

/-- Pointwise update modelling `HashMap::insert`. -/
def insertMap (m : DirPath → Option (Option DirPath)) (k : DirPath)
    (v : Option DirPath) : DirPath → Option (Option DirPath) :=
  fun p => if p = k then some v else m p

/-- One iteration of the walk loop of `collect_chat_types`
(src/lib.rs:31-57).  A directory entry equal to the root is mapped to `None`;
any other directory entry is mapped to its parent's current entry, where the
source's `.get(&parent).unwrap()` panic (parent absent) is modelled by
collapsing the whole computation to `none`.  A file entry named `0types.txt`
inserts its directory into the set and overwrites that directory's map entry
with itself; any other file entry does nothing. -/
def collectStep (st : Option CollectState) (e : FsEntry) : Option CollectState :=
  match st, e with
  | none, _ => none
  | some s, FsEntry.dir p =>
    if p = [] then
      some { s with types_map := insertMap s.types_map [] none }
    else
      match s.types_map p.dropLast with
      | none => none
      | some v => some { s with types_map := insertMap s.types_map p v }
  | some s, FsEntry.file d name =>
    if name = "0types.txt" then
      some { s with
        types_dirs := if d ∈ s.types_dirs then s.types_dirs else d :: s.types_dirs,
        types_map := insertMap s.types_map d (some d) }
    else
      some s

/-- Embedding of `collect_chat_types` (src/lib.rs:23-59), parametrised by the
sequence of entries the `WalkDir` traversal yields.  `walkdir` guarantees
that a directory is yielded before its contents, but leaves the order of
entries within one directory (in particular, of a marker file relative to
sibling subdirectories) to the operating system. -/
def collect_chat_types (entries : List FsEntry) : Option CollectState :=
  entries.foldl collectStep (some ⟨[], fun _ => none⟩)

/-- Auxiliary scan for `wfParentBeforeChild`, carrying the set of directories
yielded so far. -/
def wfGo (seen : List DirPath) : List FsEntry → Bool
  | [] => true
  | FsEntry.dir p :: rest =>
    (decide (p = []) || seen.contains p.dropLast) && wfGo (p :: seen) rest
  | FsEntry.file d _ :: rest => seen.contains d && wfGo seen rest

/-- The traversal yields every parent directory before its children: a
non-root directory entry is preceded by its parent's directory entry, and a
file entry is preceded by its containing directory's entry.  Sibling order is
left completely unconstrained. -/
def wfParentBeforeChild (entries : List FsEntry) : Bool := wfGo [] entries

/-- Traversal of the tree `root/{d/{e/, 0types.txt}}` in which the
subdirectory `e` of `d` is enumerated before `d`'s marker file — a
parent-before-child order that `walkdir` (which does not sort siblings) is
free to produce. -/
def bugEntries : List FsEntry :=
  [FsEntry.dir [], FsEntry.dir ["d"], FsEntry.dir ["d", "e"],
   FsEntry.file ["d"] "0types.txt"]

/-- Concrete ordinary line `hi`. -/
def lOrd : Line := ['h', 'i']

/-- Concrete end-of-content line `@End`. -/
def lEnd : Line := ['@', 'E', 'n', 'd']

/-- Concrete utterance line `*PAR: hi .`. -/
def lStar : Line := ['*', 'P', 'A', 'R', ':', ' ', 'h', 'i', ' ', '.']

/-- Concrete header line `@Types:» new` (with a tab after the colon). -/
def tNew : Line := ['@', 'T', 'y', 'p', 'e', 's', ':', '\t', 'n', 'e', 'w']

/-- Concrete header line `@Types:» old`. -/
def tOld : Line := ['@', 'T', 'y', 'p', 'e', 's', ':', '\t', 'o', 'l', 'd']

/-! Basic facts about the line classification. -/

theorem ordinary_not_break {a : Line} (h : isOrdinary a = true) :
    isBreakLine a = false := by
  simp only [isOrdinary, Bool.and_eq_true, Bool.not_eq_true'] at h
  exact h.1

theorem ordinary_not_types {a : Line} (h : isOrdinary a = true) :
    isTypesLine a = false := by
  simp only [isOrdinary, Bool.and_eq_true, Bool.not_eq_true'] at h
  exact h.2

theorem types_not_break {l : Line} (h : isTypesLine l = true) :
    isBreakLine l = false := by
  rw [isTypesLine, List.isPrefixOf_iff_prefix] at h
  obtain ⟨t, rfl⟩ := h
  rfl

/-! Unfolding lemmas for the streaming rewriter, one per match arm. -/

theorem up_break_cons (nt : Line) (s : Bool) (t : Line) (suf : List Line)
    (ht : isBreakLine t = true) :
    updated_prefix nt s (t :: suf) = ⟨true, if s then [nt, t] else [], suf⟩ := by
  simp [ updated_prefix, ht]

theorem up_types_cons (nt : Line) (s : Bool) (t : Line) (suf : List Line)
    (ht : isTypesLine t = true) :
    updated_prefix nt s (t :: suf) =
      if t = nt then ⟨false, if s then [t] else [], suf⟩
      else ⟨true, if s then [nt] else [], suf⟩ := by
  by_cases h : t = nt
  · subst h
    simp [ updated_prefix, ht, types_not_break ht]
  · simp [ updated_prefix, ht, types_not_break ht, h]

theorem up_ord_cons (nt : Line) (s : Bool) (a : Line) (xs : List Line)
    (ha : isOrdinary a = true) :
    updated_prefix nt s (a :: xs) =
      ⟨( updated_prefix nt s xs).updated,
       (if s then [a] else []) ++ ( updated_prefix nt s xs).written,
       ( updated_prefix nt s xs).rest⟩ := by
  simp [ updated_prefix, ordinary_not_break ha, ordinary_not_types ha]

/-- Scanning a run of ordinary lines writes them (when a sink is present) and
continues on the remainder. -/
theorem up_ord_append (nt : Line) (s : Bool) (pre xs : List Line)
    (hpre : ∀ l ∈ pre, isOrdinary l = true) :
    updated_prefix nt s (pre ++ xs) =
      ⟨( updated_prefix nt s xs).updated,
       (if s then pre else []) ++ ( updated_prefix nt s xs).written,
       ( updated_prefix nt s xs).rest⟩ := by
  induction pre with
  | nil => cases s <;> simp
  | cons a pre ih =>
    have ha : isOrdinary a = true := hpre a (List.mem_cons_self a pre)
    have hrest : ∀ l ∈ pre, isOrdinary l = true := fun l hl =>
      hpre l (List.mem_cons_of_mem a hl)
    rw [List.cons_append, up_ord_cons nt s a (pre ++ xs) ha, ih hrest]
    cases s <;> simp

/-- Exhausting the iterator without any trigger reports `false`, having
written every line as-is. -/
theorem up_all_ord (nt : Line) (s : Bool) (L : List Line)
    (h : ∀ l ∈ L, isOrdinary l = true) :
    updated_prefix nt s L = ⟨false, if s then L else [], []⟩ := by
  have := up_ord_append nt s L [] h
  simpa [ updated_prefix] using this

/-- The boolean and the consumption of the scan do not depend on whether a
sink is supplied (`if let Some(w) = w` only guards the writes). -/
theorem up_sink_agnostic (nt : Line) (L : List Line) :
    ( updated_prefix nt false L).updated = ( updated_prefix nt true L).updated ∧
    ( updated_prefix nt false L).rest = ( updated_prefix nt true L).rest := by
  induction L with
  | nil => simp [ updated_prefix]
  | cons a xs ih =>
    by_cases hb : isBreakLine a = true
    · simp [up_break_cons nt _ a xs hb]
    · by_cases htp : isTypesLine a = true
      · rw [up_types_cons nt false a xs htp, up_types_cons nt true a xs htp]
        by_cases h : a = nt <;> simp [h]
      · have ha : isOrdinary a = true := by
          simp [isOrdinary, Bool.not_eq_true] at hb htp
          simp [isOrdinary, hb, htp]
        rw [up_ord_cons nt false a xs ha, up_ord_cons nt true a xs ha]
        exact ⟨ih.1, ih.2⟩

/-- Decomposition of a list at the first element satisfying a predicate. -/
theorem first_decomp {α : Type} (p : α → Bool) (L : List α)
    (h : ∃ l ∈ L, p l = true) :
    ∃ pre t suf, L = pre ++ t :: suf ∧ (∀ l ∈ pre, p l = false) ∧ p t = true := by
  induction L with
  | nil => simp at h
  | cons a L ih =>
    by_cases hp : p a = true
    · exact ⟨[], a, L, rfl, by simp, hp⟩
    · have h' : ∃ l ∈ L, p l = true := by
        obtain ⟨l, hl, hpl⟩ := h
        rcases List.mem_cons.mp hl with rfl | hmem
        · exact absurd hpl hp
        · exact ⟨l, hmem, hpl⟩
      obtain ⟨pre, t, suf, rfl, hpre, ht⟩ := ih h'
      exact ⟨a :: pre, t, suf, rfl, by
        intro l hl
        rcases List.mem_cons.mp hl with rfl | hmem
        · exact Bool.not_eq_true _ ▸ Bool.of_not_eq_true hp
        · exact hpre l hmem, ht⟩

theorem ordinary_of_not {a : Line} (hb : ¬ isBreakLine a = true)
    (htp : ¬ isTypesLine a = true) : isOrdinary a = true := by
  simp only [Bool.not_eq_true] at hb htp
  simp [isOrdinary, hb, htp]

/-- Inversion of a `true` report of the rewriter: the input decomposes at a
first trigger which is either a break line (new text and the line written) or
a differing header line (only the new text written). -/
theorem up_updated_true_inv (nt : Line) (L : List Line)
    (h : ( updated_prefix nt true L).updated = true) :
    ∃ pre t suf, L = pre ++ t :: suf ∧ (∀ l ∈ pre, isOrdinary l = true) ∧
      ((isBreakLine t = true ∧
          updated_prefix nt true L = ⟨true, pre ++ [nt, t], suf⟩) ∨
       (isTypesLine t = true ∧ t ≠ nt ∧
          updated_prefix nt true L = ⟨true, pre ++ [nt], suf⟩)) := by
  induction L with
  | nil => simp [ updated_prefix] at h
  | cons a xs ih =>
    by_cases hb : isBreakLine a = true
    · exact ⟨[], a, xs, rfl, by simp,
        Or.inl ⟨hb, by rw [up_break_cons nt true a xs hb]; simp⟩⟩
    · by_cases htp : isTypesLine a = true
      · by_cases he : a = nt
        · exfalso
          rw [up_types_cons nt true a xs htp] at h
          simp [he] at h
        · exact ⟨[], a, xs, rfl, by simp,
            Or.inr ⟨htp, he, by rw [up_types_cons nt true a xs htp]; simp [he]⟩⟩
      · have ha : isOrdinary a = true := ordinary_of_not hb htp
        rw [up_ord_cons nt true a xs ha] at h
        obtain ⟨pre, t, suf, rfl, hpre, hcase⟩ := ih (by simpa using h)
        refine ⟨a :: pre, t, suf, rfl, ?_, ?_⟩
        · intro l hl
          rcases List.mem_cons.mp hl with rfl | hm
          · exact ha
          · exact hpre l hm
        · rcases hcase with ⟨hb', heq⟩ | ⟨ht', hne, heq⟩
          · exact Or.inl ⟨hb', by
              rw [List.cons_append, up_ord_cons nt true a _ ha, heq]; simp⟩
          · exact Or.inr ⟨ht', hne, by
              rw [List.cons_append, up_ord_cons nt true a _ ha, heq]; simp⟩

/-- Claim C2: on a line sequence whose first `@End`/`*` line occurs before any
`@Types:` line, the rewriter reports `true`, and a sink receives exactly the
ordinary prefix verbatim in order, then the new header text, then the
triggering line, and nothing after. -/
theorem C2_missing_header_insert (nt t : Line) (s : Bool) (pre suf : List Line)
    (hpre : ∀ l ∈ pre, isOrdinary l = true) (ht : isBreakLine t = true) :
    ( updated_prefix nt s (pre ++ t :: suf)).updated = true ∧
    updated_prefix nt true (pre ++ t :: suf) = ⟨true, pre ++ [nt, t], suf⟩ := by
  constructor
  · rw [up_ord_append nt s pre (t :: suf) hpre, up_break_cons nt s t suf ht]
  · rw [up_ord_append nt true pre (t :: suf) hpre, up_break_cons nt true t suf ht]
    simp

/-- Closed instance of C2 on `[hi, *PAR: hi ., @End]`. -/
theorem C2_missing_header_insert_witness :
    ( updated_prefix tNew false ([lOrd] ++ lStar :: [lEnd])).updated = true ∧
    updated_prefix tNew true ([lOrd] ++ lStar :: [lEnd]) =
      ⟨true, [lOrd] ++ [tNew, lStar], [lEnd]⟩ :=
  C2_missing_header_insert tNew lStar false [lOrd] [lEnd] (by decide) (by decide)

/-- Claim C3: on a line sequence whose first trigger is a `@Types:` line, the
rewriter reports `true` iff that line differs from the new header text;
a sink receives the new text in place of the old line when they differ, the
original line unchanged when they are equal, and scanning stops immediately
in both cases. -/
theorem C3_header_replace (nt t : Line) (s : Bool) (pre suf : List Line)
    (hpre : ∀ l ∈ pre, isOrdinary l = true) (ht : isTypesLine t = true) :
    (( updated_prefix nt s (pre ++ t :: suf)).updated = true ↔ t ≠ nt) ∧
    ( updated_prefix nt s (pre ++ t :: suf)).rest = suf ∧
    (t ≠ nt → updated_prefix nt true (pre ++ t :: suf) = ⟨true, pre ++ [nt], suf⟩) ∧
    (t = nt → updated_prefix nt true (pre ++ t :: suf) = ⟨false, pre ++ [t], suf⟩) := by
  rw [up_ord_append nt s _ _ hpre, up_ord_append nt true _ _ hpre,
    up_types_cons nt s t suf ht, up_types_cons nt true t suf ht]
  by_cases h : t = nt <;> simp [h]

/-- Closed instance of C3 on `[hi, @Types:»old, @End]` with differing text. -/
theorem C3_header_replace_witness :
    ((( updated_prefix tNew true ([lOrd] ++ tOld :: [lEnd])).updated = true ↔
        tOld ≠ tNew) ∧
     ( updated_prefix tNew true ([lOrd] ++ tOld :: [lEnd])).rest = [lEnd] ∧
     (tOld ≠ tNew →
        updated_prefix tNew true ([lOrd] ++ tOld :: [lEnd]) =
          ⟨true, [lOrd] ++ [tNew], [lEnd]⟩) ∧
     (tOld = tNew →
        updated_prefix tNew true ([lOrd] ++ tOld :: [lEnd]) =
          ⟨false, [lOrd] ++ [tOld], [lEnd]⟩)) :=
  C3_header_replace tNew tOld true [lOrd] [lEnd] (by decide) (by decide)

/-- Claim C4: the scan consumes exactly the lines up to and including the
first trigger (the unconsumed remainder is precisely the suffix after it),
and on a trigger-free sequence it consumes everything, reports `false`, and
has written every consumed line as-is when a sink is present. -/
theorem C4_exact_consumption (nt : Line) (s : Bool) (pre : List Line) (t : Line)
    (suf all : List Line)
    (hpre : ∀ l ∈ pre, isOrdinary l = true) (ht : isTrigger t = true)
    (hall : ∀ l ∈ all, isOrdinary l = true) :
    ( updated_prefix nt s (pre ++ t :: suf)).rest = suf ∧
    updated_prefix nt s all = ⟨false, if s then all else [], []⟩ := by
  refine ⟨?_, up_all_ord nt s all hall⟩
  rw [up_ord_append nt s _ _ hpre]
  have ht' : isBreakLine t = true ∨ isTypesLine t = true := by
    simpa [isTrigger] using ht
  rcases ht' with hb | htp
  · rw [up_break_cons nt s t suf hb]
  · rw [up_types_cons nt s t suf htp]
    by_cases h : t = nt <;> simp [h]

/-- Closed instance of C4: trigger at position 1 of a 3-line sequence, and a
trigger-free 1-line sequence. -/
theorem C4_exact_consumption_witness :
    ( updated_prefix tNew true ([lOrd] ++ lStar :: [lEnd])).rest = [lEnd] ∧
    updated_prefix tNew true [lOrd] = ⟨false, if true then [lOrd] else [], []⟩ :=
  C4_exact_consumption tNew true [lOrd] lStar [lEnd] [lOrd]
    (by decide) (by decide) (by decide)

/-- Claim C7: a dry run returns the same boolean as a non-dry run on the same
content and writes nothing, and the rewriter's boolean does not depend on
whether a sink is supplied. -/
theorem C7_dry_run_agrees (L : List Line) (H : Line) :
    ( update_types_to_new_path L H true).1 = ( update_types_to_new_path L H false).1 ∧
    ( update_types_to_new_path L H true).2 = none ∧
    ( updated_prefix H false L).updated = ( updated_prefix H true L).updated := by
  have h := up_sink_agnostic H L
  refine ⟨?_, rfl, h.1⟩
  by_cases hu : ( updated_prefix H true L).updated = true <;>
    simp [ update_types_to_new_path, hu, h.1]

/-- Claim C8: whenever the rewriter reports that no update is needed, the
updater returns `false` and produces no output in either mode. -/
theorem C8_no_update_no_output (L : List Line) (H : Line) (d : Bool)
    (h : ( updated_prefix H true L).updated = false) :
    update_types_to_new_path L H d = (false, none) := by
  have h0 := (up_sink_agnostic H L).1
  cases d <;> simp [ update_types_to_new_path, h, h0]

/-- Closed instance of C8 on content whose header already equals the new
text. -/
theorem C8_no_update_no_output_witness :
    update_types_to_new_path [tNew, lEnd] tNew false = (false, none) :=
  C8_no_update_no_output [tNew, lEnd] tNew false (by decide)

/-- Claim C9: `read_types_file` returns the first line exactly when it starts
with `@Types:`, aborts (modelled `none`) otherwise and on an empty file, and
never inspects anything beyond the first line. -/
theorem C9_read_types_first_line (l : Line) (rest rest' : List Line) :
    (read_types_file (l :: rest) =
        if typesTok.isPrefixOf l then some l else none) ∧
    read_types_file (l :: rest) = read_types_file (l :: rest') ∧
    read_types_file ([] : List Line) = none :=
  ⟨rfl, rfl, rfl⟩

/-- Claim C6: the non-dry-run update is idempotent — whenever a first run
with a `@Types:`-headed text reports `true` and persists content `Cnew`, a
second run on `Cnew` reports `false` and writes nothing, leaving the content
unchanged. -/
theorem C6_idempotent (L : List Line) (H : Line) (hH : isTypesLine H = true)
    (Cnew : List Line)
    (h : update_types_to_new_path L H false = (true, some Cnew)) :
    update_types_to_new_path Cnew H false = (false, none) ∧
    resultContent Cnew H = Cnew := by
  have hup : ( updated_prefix H true L).updated = true := by
    by_cases hu : ( updated_prefix H true L).updated = true
    · exact hu
    · rw [Bool.not_eq_true] at hu
      simp [ update_types_to_new_path, hu] at h
  have hC : Cnew =
      ( updated_prefix H true L).written ++ ( updated_prefix H true L).rest := by
    simp [ update_types_to_new_path, hup] at h
    exact h.symm
  obtain ⟨pre, t, suf, rfl, hpre, hcase⟩ := up_updated_true_inv H L hup
  have key : ∀ suf2 : List Line,
      update_types_to_new_path (pre ++ H :: suf2) H false = (false, none) := by
    intro suf2
    have hval : updated_prefix H true (pre ++ H :: suf2) =
        ⟨false, pre ++ [H], suf2⟩ := by
      rw [up_ord_append H true _ _ hpre, up_types_cons H true H suf2 hH]
      simp
    simp [ update_types_to_new_path, hval]
  have main : update_types_to_new_path Cnew H false = (false, none) := by
    rcases hcase with ⟨hb, heq⟩ | ⟨htp, hne, heq⟩
    · have hCnew : Cnew = pre ++ H :: (t :: suf) := by
        rw [hC, heq]
        simp
      rw [hCnew]
      exact key (t :: suf)
    · have hCnew : Cnew = pre ++ H :: suf := by
        rw [hC, heq]
        simp
      rw [hCnew]
      exact key suf
  exact ⟨main, by simp [resultContent, main]⟩

/-- Closed instance of C6: content `[@End]` is updated to `[@Types:»new,
@End]`, and a second run changes nothing. -/
theorem C6_idempotent_witness :
    update_types_to_new_path [tNew, lEnd] tNew false = (false, none) ∧
    resultContent [tNew, lEnd] tNew = [tNew, lEnd] :=
  C6_idempotent [lEnd] tNew (by decide) [tNew, lEnd] (by decide)

theorem ordinary_of_trigger_false {l : Line} (h : isTrigger l = false) :
    isOrdinary l = true := by
  simp only [isTrigger, Bool.or_eq_false_iff] at h
  simp [isOrdinary, h.1, h.2]

theorem takeWhile_append_all {α : Type} (p : α → Bool) (pre xs : List α)
    (h : ∀ l ∈ pre, p l = true) :
    (pre ++ xs).takeWhile p = pre ++ xs.takeWhile p := by
  induction pre with
  | nil => simp
  | cons a pre ih =>
    rw [List.cons_append, List.takeWhile_cons]
    simp [h a (List.mem_cons_self a pre),
      ih fun l hl => h l (List.mem_cons_of_mem a hl)]

theorem findIdx_append_none {α : Type} (p : α → Bool) (pre xs : List α)
    (h : ∀ l ∈ pre, p l = false) :
    (pre ++ xs).findIdx p = pre.length + xs.findIdx p := by
  induction pre with
  | nil => simp
  | cons a pre ih =>
    rw [List.cons_append, List.findIdx_cons]
    simp [h a (List.mem_cons_self a pre),
      ih fun l hl => h l (List.mem_cons_of_mem a hl)]
    omega

theorem countP_types_zero_of_ord (pre : List Line)
    (h : ∀ l ∈ pre, isOrdinary l = true) :
    (pre.countP fun l => isTypesLine l) = 0 :=
  List.countP_eq_zero.mpr fun a ha => by simp [ordinary_not_types (h a ha)]

theorem countP_eqH_zero_of_no_types {H : Line} (hH : isTypesLine H = true)
    (xs : List Line) (h : ∀ l ∈ xs, isTypesLine l = false) :
    (xs.countP fun l => decide (l = H)) = 0 :=
  List.countP_eq_zero.mpr fun a ha => by
    simp only [decide_eq_true_eq]
    intro hc
    subst hc
    rw [h a ha] at hH
    exact Bool.false_ne_true hH

/-- Claim C5 counterexample: the claim quantifies over every file content,
but on the content `[hi]` — which has no header, no end marker and no
utterance line — the non-dry-run update reports no change and leaves the file
without any header line, so the resulting content does not contain the
owner's header text exactly once. -/
theorem C5_counterexample :
    ¬ ((beforeBreak (resultContent [lOrd] tNew)).countP
        (fun l => decide (l = tNew)) = 1) := by decide

/-- Claim C5 (amended): for content that contains at least one trigger line
and at most one header line before its first end-marker/utterance line, a
non-dry-run update with a `@Types:`-headed owner text `H` yields content
whose region before the first end-marker/utterance line contains `H` exactly
once, that occurrence being its only header line, at the original header's
position (at the first end-marker/utterance line's position when no header
existed). -/
theorem C5_header_unique_amended (L : List Line) (H : Line)
    (hH : isTypesLine H = true)
    (htrig : ∃ t ∈ L, isTrigger t = true)
    (hone : headerCount L ≤ 1) :
    (beforeBreak (resultContent L H)).countP (fun l => decide (l = H)) = 1 ∧
    headerCount (resultContent L H) = 1 ∧
    (resultContent L H).findIdx (fun l => isTypesLine l) = headerPos L := by
  obtain ⟨pre, t, suf, rfl, hpre0, ht⟩ := first_decomp _ L htrig
  have hpre : ∀ l ∈ pre, isOrdinary l = true := fun l hl =>
    ordinary_of_trigger_false (hpre0 l hl)
  have hpreB : ∀ l ∈ pre, (!isBreakLine l) = true := fun l hl => by
    simp [ordinary_not_break (hpre l hl)]
  have hpreT : ∀ l ∈ pre, (fun l => isTypesLine l) l = false := fun l hl =>
    ordinary_not_types (hpre l hl)
  have hpreH : ∀ l ∈ pre, isTypesLine l = false := fun l hl =>
    ordinary_not_types (hpre l hl)
  have hHb : (!isBreakLine H) = true := by simp [types_not_break hH]
  have ht' : isBreakLine t = true ∨ isTypesLine t = true := by
    simpa [isTrigger] using ht
  rcases ht' with hb | htp
  · -- the first trigger is an end-marker/utterance line: insert before it
    have hval : updated_prefix H true (pre ++ t :: suf) =
        ⟨true, pre ++ [H, t], suf⟩ := by
      rw [up_ord_append H true _ _ hpre, up_break_cons H true t suf hb]
      simp
    have hres : resultContent (pre ++ t :: suf) H = pre ++ H :: t :: suf := by
      simp [resultContent, update_types_to_new_path, hval]
    have hbb : beforeBreak (pre ++ H :: t :: suf) = pre ++ [H] := by
      rw [beforeBreak, takeWhile_append_all _ pre _ hpreB, List.takeWhile_cons]
      simp [hHb, List.takeWhile_cons, hb]
    have hbbL : beforeBreak (pre ++ t :: suf) = pre := by
      rw [beforeBreak, takeWhile_append_all _ pre _ hpreB, List.takeWhile_cons]
      simp [hb]
    have hhc : headerCount (pre ++ t :: suf) = 0 := by
      rw [headerCount, hbbL]
      exact countP_types_zero_of_ord pre hpre
    refine ⟨?_, ?_, ?_⟩
    · rw [hres, hbb, List.countP_append,
        countP_eqH_zero_of_no_types hH pre hpreH]
      simp [List.countP_cons]
    · rw [hres, headerCount, hbb, List.countP_append,
        countP_types_zero_of_ord pre hpre]
      simp [List.countP_cons, hH]
    · rw [hres, findIdx_append_none _ pre _ hpreT, headerPos, hhc, hbbL]
      simp [List.findIdx_cons, hH]
  · by_cases he : t = H
    · -- the header is already the owner's text: no change
      subst he
      have hval : updated_prefix t true (pre ++ t :: suf) =
          ⟨false, pre ++ [t], suf⟩ := by
        rw [up_ord_append t true _ _ hpre, up_types_cons t true t suf htp]
        simp
      have hres : resultContent (pre ++ t :: suf) t = pre ++ t :: suf := by
        simp [resultContent, update_types_to_new_path, hval]
      have hbbL : beforeBreak (pre ++ t :: suf) =
          pre ++ t :: (suf.takeWhile fun l => !isBreakLine l) := by
        rw [beforeBreak, takeWhile_append_all _ pre _ hpreB, List.takeWhile_cons]
        simp [types_not_break htp]
      have hsuf0 :
          ((suf.takeWhile fun l => !isBreakLine l).countP
            fun l => isTypesLine l) = 0 := by
        have h1 := hone
        rw [headerCount, hbbL, List.countP_append, List.countP_cons,
          countP_types_zero_of_ord pre hpre] at h1
        simp [htp] at h1
        exact List.countP_eq_zero.mpr fun a ha => by simp [h1 a ha]
      have hnoT : ∀ l ∈ suf.takeWhile (fun l => !isBreakLine l),
          isTypesLine l = false := by
        intro l hl
        by_contra hcon
        rw [Bool.not_eq_false] at hcon
        exact (List.countP_eq_zero.mp hsuf0 l hl) hcon
      have hhc : headerCount (pre ++ t :: suf) = 1 := by
        rw [headerCount, hbbL, List.countP_append, List.countP_cons,
          countP_types_zero_of_ord pre hpre, hsuf0]
        simp [htp]
      refine ⟨?_, ?_, ?_⟩
      · rw [hres, hbbL, List.countP_append, List.countP_cons,
          countP_eqH_zero_of_no_types htp pre hpreH,
          countP_eqH_zero_of_no_types htp _ hnoT]
        simp
      · rw [hres]
        exact hhc
      · rw [hres, headerPos, hhc]
        simp
    · -- a differing header is replaced in place
      have hval : updated_prefix H true (pre ++ t :: suf) =
          ⟨true, pre ++ [H], suf⟩ := by
        rw [up_ord_append H true _ _ hpre, up_types_cons H true t suf htp]
        simp [he]
      have hres : resultContent (pre ++ t :: suf) H = pre ++ H :: suf := by
        simp [resultContent, update_types_to_new_path, hval]
      have hbbL : beforeBreak (pre ++ t :: suf) =
          pre ++ t :: (suf.takeWhile fun l => !isBreakLine l) := by
        rw [beforeBreak, takeWhile_append_all _ pre _ hpreB, List.takeWhile_cons]
        simp [types_not_break htp]
      have hsuf0 :
          ((suf.takeWhile fun l => !isBreakLine l).countP
            fun l => isTypesLine l) = 0 := by
        have h1 := hone
        rw [headerCount, hbbL, List.countP_append, List.countP_cons,
          countP_types_zero_of_ord pre hpre] at h1
        simp [htp] at h1
        exact List.countP_eq_zero.mpr fun a ha => by simp [h1 a ha]
      have hnoT : ∀ l ∈ suf.takeWhile (fun l => !isBreakLine l),
          isTypesLine l = false := by
        intro l hl
        by_contra hcon
        rw [Bool.not_eq_false] at hcon
        exact (List.countP_eq_zero.mp hsuf0 l hl) hcon
      have hhc : headerCount (pre ++ t :: suf) = 1 := by
        rw [headerCount, hbbL, List.countP_append, List.countP_cons,
          countP_types_zero_of_ord pre hpre, hsuf0]
        simp [htp]
      have hbbR : beforeBreak (pre ++ H :: suf) =
          pre ++ H :: (suf.takeWhile fun l => !isBreakLine l) := by
        rw [beforeBreak, takeWhile_append_all _ pre _ hpreB, List.takeWhile_cons]
        simp [hHb]
      refine ⟨?_, ?_, ?_⟩
      · rw [hres, hbbR, List.countP_append, List.countP_cons,
          countP_eqH_zero_of_no_types hH pre hpreH,
          countP_eqH_zero_of_no_types hH _ hnoT]
        simp
      · rw [hres, headerCount, hbbR, List.countP_append, List.countP_cons,
          countP_types_zero_of_ord pre hpre, hsuf0]
        simp [hH]
      · rw [hres, headerPos, hhc, findIdx_append_none _ pre _ hpreT,
          findIdx_append_none _ pre _ hpreT]
        simp [List.findIdx_cons, hH, htp]

/-- Closed instance of C5 (amended) on `[hi, @Types:»old, @End]` with owner
text `@Types:»new`. -/
theorem C5_header_unique_amended_witness :
    (beforeBreak (resultContent [lOrd, tOld, lEnd] tNew)).countP
        (fun l => decide (l = tNew)) = 1 ∧
    headerCount (resultContent [lOrd, tOld, lEnd] tNew) = 1 ∧
    (resultContent [lOrd, tOld, lEnd] tNew).findIdx (fun l => isTypesLine l) =
      headerPos [lOrd, tOld, lEnd] :=
  C5_header_unique_amended [lOrd, tOld, lEnd] tNew (by decide) (by decide)
    (by decide)

theorem find?_none_of_all {α : Type} (p : α → Bool) (L : List α)
    (h : ∀ l ∈ L, p l = false) : L.find? p = none := by
  induction L with
  | nil => rfl
  | cons a xs ih =>
    rw [List.find?_cons]
    simp [h a (List.mem_cons_self a xs),
      ih fun l hl => h l (List.mem_cons_of_mem a hl)]

theorem find?_append_none {α : Type} (p : α → Bool) (pre xs : List α)
    (h : ∀ l ∈ pre, p l = false) : (pre ++ xs).find? p = xs.find? p := by
  induction pre with
  | nil => rfl
  | cons a pre ih =>
    rw [List.cons_append, List.find?_cons]
    simp [h a (List.mem_cons_self a pre),
      ih fun l hl => h l (List.mem_cons_of_mem a hl)]

theorem get_fast_ord_append (pre xs : List Line)
    (h : ∀ l ∈ pre, isOrdinary l = true) :
    get_types_fast (pre ++ xs) = get_types_fast xs := by
  induction pre with
  | nil => rfl
  | cons a pre ih =>
    rw [List.cons_append]
    simp [get_types_fast, ordinary_not_break (h a (List.mem_cons_self a pre)),
      ordinary_not_types (h a (List.mem_cons_self a pre)),
      ih fun l hl => h l (List.mem_cons_of_mem a hl)]

theorem get_fast_none (L : List Line) (h : ∀ l ∈ L, isTypesLine l = false) :
    get_types_fast L = none := by
  induction L with
  | nil => rfl
  | cons a xs ih =>
    by_cases hb : isBreakLine a = true
    · simp [get_types_fast, hb]
    · simp [get_types_fast, hb, h a (List.mem_cons_self a xs),
        ih fun l hl => h l (List.mem_cons_of_mem a hl)]

/-- Claim C10 counterexample: the slurp and streaming variants do not compute
the same function.  On `[*PAR: hi ., @Types:»old]` the get variants disagree
(the regex search finds the header after the utterance line, the scan bails
out first), and on the trigger-free content `[hi]` the replace variants
disagree (the slurp splice branch reports `true` unconditionally, the scan
reports `false`). -/
theorem C10_counterexample :
    ¬ (get_types_slurp [lStar, tOld] = get_types_fast [lStar, tOld] ∧
       replace_types_slurp [lOrd] tNew = replace_types_fast [lOrd] tNew) := by
  decide

/-- Claim C10 (amended): the variants agree on well-formed contents — those
in which every `@Types:`-prefixed line has at least one character after the
token (so the regex `.+` can match it) and no `@Types:`-prefixed line occurs
after an `@End`/`*` line; for the replace pair the content must additionally
contain at least one trigger line. -/
theorem C10_variants_agree_amended (L : List Line) (nt : Line)
    (h1 : ∀ l ∈ L, isTypesLine l = true → typesTok.length < l.length)
    (h2 : L.Pairwise fun x y => isBreakLine x = true → isTypesLine y = false) :
    get_types_slurp L = get_types_fast L ∧
    ((∃ t ∈ L, isTrigger t = true) →
      replace_types_slurp L nt = replace_types_fast L nt) := by
  by_cases hty : ∃ l ∈ L, isTypesLine l = true
  · obtain ⟨pre, t, suf, rfl, hpreTf, htp⟩ := first_decomp _ L hty
    have hpreB : ∀ l ∈ pre, isBreakLine l = false := by
      intro b hb
      by_contra hcon
      rw [Bool.not_eq_false] at hcon
      have hR := (List.pairwise_append.mp h2).2.2 b hb t (List.mem_cons_self t suf)
      rw [hR hcon] at htp
      exact Bool.false_ne_true htp
    have hpreOrd : ∀ l ∈ pre, isOrdinary l = true := fun l hl =>
      ordinary_of_not (by simp [hpreB l hl]) (by simp [hpreTf l hl])
    have hpreM : ∀ l ∈ pre, typesRegexMatch l = false := fun l hl => by
      simp [typesRegexMatch, hpreTf l hl]
    have htM : typesRegexMatch t = true := by
      simp [typesRegexMatch, htp, h1 t (by simp) htp]
    constructor
    · rw [get_types_slurp, find?_append_none _ pre _ hpreM,
        get_fast_ord_append pre _ hpreOrd, List.find?_cons]
      simp [htM, get_types_fast, types_not_break htp, htp]
    · intro _
      rw [replace_types_slurp, find?_append_none _ pre _ hpreM,
        List.find?_cons, replace_types_fast,
        up_ord_append nt true _ _ hpreOrd, up_types_cons nt true t suf htp]
      by_cases he : t = nt
      · subst he
        simp [htM]
      · simp [htM, he]
  · push_neg at hty
    have hno : ∀ l ∈ L, isTypesLine l = false := by
      intro l hl
      have := hty l hl
      simpa using this
    have hnoM : ∀ l ∈ L, typesRegexMatch l = false := fun l hl => by
      simp [typesRegexMatch, hno l hl]
    constructor
    · rw [get_types_slurp, find?_none_of_all _ L hnoM, get_fast_none L hno]
    · intro htrig
      obtain ⟨pre, t, suf, rfl, hpre0, ht⟩ := first_decomp _ L htrig
      have htb : isBreakLine t = true := by
        have ht2 : isBreakLine t = true ∨ isTypesLine t = true := by
          simpa [isTrigger] using ht
        rcases ht2 with hb | hty2
        · exact hb
        · rw [hno t (by simp)] at hty2
          exact absurd hty2 (by simp)
      have hpreOrd : ∀ l ∈ pre, isOrdinary l = true := fun l hl =>
        ordinary_of_trigger_false (hpre0 l hl)
      rw [replace_types_slurp, find?_none_of_all _ _ hnoM,
        replace_types_fast, up_ord_append nt true _ _ hpreOrd,
        up_break_cons nt true t suf htb]

/-- Closed instance of C10 (amended) on `[hi, @Types:»old, @End]`. -/
theorem C10_variants_agree_amended_witness :
    get_types_slurp [lOrd, tOld, lEnd] = get_types_fast [lOrd, tOld, lEnd] ∧
    ((∃ t ∈ [lOrd, tOld, lEnd], isTrigger t = true) →
      replace_types_slurp [lOrd, tOld, lEnd] tNew =
        replace_types_fast [lOrd, tOld, lEnd] tNew) :=
  C10_variants_agree_amended [lOrd, tOld, lEnd] tNew (by decide) (by decide)

/-- Claim C1: the inheritance invariant does not survive arbitrary sibling
order.  `bugEntries` is a parent-before-child traversal of the tree
`root/{d/{e/, 0types.txt}}` in which `d`'s marker file is enumerated after
`d`'s subdirectory `e` — an order `walkdir` (which yields the entries of a
directory in unsorted operating-system order) is free to produce, and which
the claim explicitly leaves unconstrained.  The marker directory `d`
correctly maps to itself, but its markerless child `d/e` ends up mapped to
`none` instead of its parent's mapped value `some d`: `d/e` inherited `d`'s
entry before the marker file overwrote it.  This contradicts the source's own
doc comment ("Map to which closest ancestor directory has 0types.txt") and
the expectation of its `collect_chat_types_mixed` unit test. -/
theorem C1_inheritance_order_bug :
    wfParentBeforeChild bugEntries = true ∧
    (collect_chat_types bugEntries).map
        (fun s => (s.types_map ["d"], s.types_map ["d", "e"])) =
      some (some (some ["d"]), some none) :=
  ⟨rfl, rfl⟩

end UpdateChatTypes
